import Mathlib

/-!
Verification of the `shh` multi-user secret store (`main.go`) against its
natural-language specification.

The development shallowly embeds the data model and the operations of the
program: byte strings are `List Nat`, Go maps are association lists with the
first binding winning, fallible Go code returns a `GoResult` that separates
reported errors (`err`) from runtime panics (`panic`).

External cryptographic primitives (AES-CFB from `crypto/aes`/`crypto/cipher`,
RSA-OAEP from `crypto/rsa`, SHA-1 from `crypto/sha1`) and the base64 codec
from `encoding/base64` are not part of the repository; they are modelled
symbolically, keeping exactly the properties the program relies on:
an exact round trip, the `IV || stream` ciphertext layout with a 16-byte IV,
unwrap succeeding precisely under the matching private key, and an injective
digest.
-/

/-- Byte strings.  A Go `[]byte` (and a Go `string`, which the program freely
converts to and from `[]byte`) is modelled as a list of naturals. -/
abbrev Bytes := List Nat

/-- `aes.BlockSize` for AES: 16 bytes. -/
def blockSize : Nat := 16

/-- Result of a fallible Go computation: a normal value, a reported error
(`error` return value), or a runtime panic (index/slice out of range,
nil-pointer dereference). -/
inductive GoResult (α : Type) where
  | ok (a : α)
  | err (msg : String)
  | panic (msg : String)
deriving DecidableEq

/-- Base-16 digits of `n`, least significant first, with explicit fuel so the
recursion is structural. -/
def toDigitsAux : Nat → Nat → List Nat
  | 0, _ => []
  | _, 0 => []
  | fuel + 1, n + 1 => ((n + 1) % 16) :: toDigitsAux fuel ((n + 1) / 16)

/-- Base-16 digits of `n`, least significant first (`[]` for `0`). -/
def toDigits16 (n : Nat) : List Nat := toDigitsAux n n

/-- Reassemble a natural from its little-endian base-16 digits. -/
def ofDigits16 : List Nat → Nat
  | [] => 0
  | d :: ds => d + 16 * ofDigits16 ds

/-- Models the external base64 codec of `encoding/base64`: an injective
textual encoding of byte strings with an exact decoder.  Each byte is emitted
as its base-16 digits followed by the terminator symbol `16`; the concrete
alphabet is immaterial to every property claimed of the program. -/
def b64encode : Bytes → Bytes
  | [] => []
  | b :: bs => toDigits16 b ++ 16 :: b64encode bs

/-- Decoder loop for `b64encode`: accumulates digits until a terminator. -/
def b64decodeAux : Bytes → List Nat → Option Bytes
  | [], acc => match acc with
    | [] => some []
    | _ :: _ => none
  | c :: rest, acc =>
    if c < 16 then b64decodeAux rest (acc ++ [c])
    else if c = 16 then
      match b64decodeAux rest [] with
      | some tl => some (ofDigits16 acc :: tl)
      | none => none
    else none

/-- Exact decoder for the modelled base64 codec. -/
def b64decode (s : Bytes) : Option Bytes := b64decodeAux s []

/-- Symbolic model of `rsa.EncryptOAEP` under a public key: the wrapped bytes
record the key that wrapped them together with the payload. -/
def rsaEncryptOAEP (pub : Nat) (msg : Bytes) : Bytes := pub :: msg

/-- Symbolic model of `rsa.DecryptOAEP` under a private key: unwrapping
succeeds exactly when the payload was wrapped under the matching key pair
(a key pair is one identifier in the model), and then recovers the payload. -/
def rsaDecryptOAEP (priv : Nat) (ct : Bytes) : Option Bytes :=
  match ct with
  | [] => none
  | p :: m => if p = priv then some m else none

/-- Keystream of the modelled CFB stream cipher.  Any concrete keystream
function gives a faithful model of `cipher.NewCFBEncrypter`/`Decrypter` for
the claimed properties, which rely only on XOR being an involution and on
the `IV || stream` layout. -/
def keystream (key iv : Bytes) (i : Nat) : Nat := (key.sum + iv.sum + i) % 256

/-- XOR a byte string against the keystream starting at position `i`
(models `stream.XORKeyStream`). -/
def cfbXorFrom (key iv : Bytes) : Nat → Bytes → Bytes
  | _, [] => []
  | i, b :: bs => (b ^^^ keystream key iv i) :: cfbXorFrom key iv (i + 1) bs

/-- Models the whole-buffer `XORKeyStream` call. -/
def cfbXor (key iv data : Bytes) : Bytes := cfbXorFrom key iv 0 data

/-- Models the symmetric encryption performed by the program: a fresh IV
followed by the CFB-encrypted plaintext (`encrypted := IV || stream`). -/
def aesCfbEncrypt (key iv pt : Bytes) : Bytes := iv ++ cfbXor key iv pt

/-- The decryption branch shared by `get`, `edit` and `allow` once the length
is (or should have been) checked: slice off the IV, then XOR the stream. -/
def decryptSecretBody (key data : Bytes) : Bytes :=
  cfbXor key (data.take blockSize) (data.drop blockSize)

/-- `aes.NewCipher` accepts only 16-, 24- or 32-byte keys. -/
def aesNewCipherOk (key : Bytes) : Bool :=
  key.length == 16 || key.length == 24 || key.length == 32

/-- Fill a buffer of exactly `n` bytes from a random source (models
`rand.Read`/`io.ReadFull` into a fixed-size buffer). -/
def padTrunc (n : Nat) (l : Bytes) : Bytes := (l ++ List.replicate n 0).take n

/-- Lookup in a Go map modelled as an association list (first binding wins;
a Go map has no duplicate keys, so well-formed states have distinct keys). -/
def lookupA {α β : Type} [DecidableEq α] : List (α × β) → α → Option β
  | [], _ => none
  | (k', v') :: rest, k => if k' = k then some v' else lookupA rest k

/-- `m[k] = v` on a Go map: replace the existing binding, else append. -/
def insertA {α β : Type} [DecidableEq α] : List (α × β) → α → β → List (α × β)
  | [], k, v => [(k, v)]
  | (k', v') :: rest, k, v =>
    if k' = k then (k, v) :: rest else (k', v') :: insertA rest k v

/-- `delete(m, k)` on a Go map. -/
def eraseA {α β : Type} [DecidableEq α] : List (α × β) → α → List (α × β)
  | [], _ => []
  | (k', v') :: rest, k => if k' = k then rest else (k', v') :: eraseA rest k

/-- One persisted secret record (`type secret` of the program): `AESKey` is
the base64 text of the RSA-wrapped symmetric key, `Encrypted` the base64 text
of the symmetric ciphertext, exactly as stored in the `.shh` manifest. -/
structure secret where
  AESKey : Bytes
  Encrypted : Bytes
deriving DecidableEq

/-- The project manifest (`type shh` of the program): `Keys` maps usernames
to public-key material, `Secrets` maps usernames to their map of named
secret records. -/
structure shh where
  Keys : List (String × Nat)
  Secrets : List (String × List (String × secret))
deriving DecidableEq

/-- Convenience: the stored record of secret `name` held by user `v`. -/
def secretOf (s : shh) (v name : String) : Option secret :=
  match lookupA s.Secrets v with
  | some m => lookupA m name
  | none => none

/-- Well-formed manifest: a Go map has no duplicate keys, so the username
list and each user's secret-name list are duplicate free. -/
def wfShh (s : shh) : Prop :=
  (s.Secrets.map Prod.fst).Nodup ∧ ∀ p ∈ s.Secrets, ((p.2.map Prod.fst).Nodup)

instance (s : shh) : Decidable (wfShh s) := by
  unfold wfShh
  infer_instance

/-- Base64-decode both fields of a stored record; the resolver hands the
operations raw bytes. -/
def decodeSecret (sec : secret) : GoResult secret :=
  match b64decode sec.AESKey, b64decode sec.Encrypted with
  | some k, some e => .ok ⟨k, e⟩
  | _, _ => .err "decode base64"

/-- Decode every matched record, failing on the first malformed field. -/
def decodeSecrets : List (String × secret) → GoResult (List (String × secret))
  | [] => .ok []
  | (k, sec) :: rest =>
    match decodeSecret sec with
    | .ok d =>
      match decodeSecrets rest with
      | .ok ds => .ok ((k, d) :: ds)
      | .err e => .err e
      | .panic e => .panic e
    | .err e => .err e
    | .panic e => .panic e

/-- Records of `user` matched by `pattern` in their stored (base64) form:
the literal wildcard token selects all of the user's secrets, any other
pattern selects the single entry of that name when present, else nothing. -/
def matchedStored (s : shh) (pattern user : String) : List (String × secret) :=
  let stored := (lookupA s.Secrets user).getD []
  if pattern = "*" then stored
  else
    match lookupA stored pattern with
    | some sec => [(pattern, sec)]
    | none => []

/-- Modelled from the spec: the source file defining `GetSecretsForUser` (the
access resolver of the Manifest Model) is not among the provided sources —
only its callers in `main.go` are.  Per §4.3 the resolver returns all of the
user's secrets for the wildcard pattern, the single named entry when present,
and an empty result (not an error) otherwise; per §3/§4.1 a `Secret` is a pair
of byte fields whose persisted form is base64 text, so the resolver yields the
base64-decoded records (the callers use the returned bytes directly). -/
def GetSecretsForUser (s : shh) (pattern user : String) :
    GoResult (List (String × secret)) :=
  decodeSecrets (matchedStored s pattern user)

/-- Shared decryption path of `get` (lines 201–225) and `edit` (lines
586–606) for one decoded record: unwrap the AES key with the private key,
build the cipher, reject inputs shorter than one block, then slice off the
IV and XOR the stream. -/
def decryptStoredChecked (priv : Nat) (sec : secret) : GoResult Bytes :=
  match rsaDecryptOAEP priv sec.AESKey with
  | none => .err "decrypt secret"
  | some aesKey =>
    if aesNewCipherOk aesKey then
      if sec.Encrypted.length < blockSize then .err "encrypted secret too short"
      else .ok (decryptSecretBody aesKey sec.Encrypted)
    else .err "invalid key size"

/-- What `get` does to a single stored record: the resolver's base64 decode
followed by the checked decryption path. -/
def getDecrypt (priv : Nat) (sec : secret) : GoResult Bytes :=
  match decodeSecret sec with
  | .ok d => decryptStoredChecked priv d
  | .err e => .err e
  | .panic e => .panic e

/-- Loop body of `get`: decrypt every matched record, collecting the
plaintexts that are printed. -/
def getLoop (priv : Nat) : List (String × secret) → GoResult (List Bytes)
  | [] => .ok []
  | (_, sec) :: rest =>
    match decryptStoredChecked priv sec with
    | .ok pt =>
      match getLoop priv rest with
      | .ok l => .ok (pt :: l)
      | .err e => .err e
      | .panic e => .panic e
    | .err e => .err e
    | .panic e => .panic e

/-- The `get` operation (lines 165–227) after the password and key pair are
obtained: resolve the pattern for the acting user, then decrypt each match. -/
def get (s : shh) (u : String) (priv : Nat) (pattern : String) :
    GoResult (List Bytes) :=
  match GetSecretsForUser s pattern u with
  | .ok secs => getLoop priv secs
  | .err e => .err e
  | .panic e => .panic e

/-- Mint one fresh envelope as `set`, `allow` and `edit` do: a fresh 32-byte
AES key, a fresh 16-byte IV, `IV || stream` symmetric ciphertext, the AES key
wrapped under the target's public key, both fields base64-encoded. -/
def encryptEnvelope (pub : Nat) (pt : Bytes) (keyRnd ivRnd : Bytes) : secret :=
  let aesKey := padTrunc 32 keyRnd
  let iv := padTrunc blockSize ivRnd
  ⟨b64encode (rsaEncryptOAEP pub aesKey), b64encode (aesCfbEncrypt aesKey iv pt)⟩

/-- Decryption as performed inside `allow` (lines 391–407): unlike `get` and
`edit` there is no length check before slicing off the IV, so an input
shorter than one block is a runtime panic (slice bounds out of range), not a
reported error. -/
def allowDecrypt (priv : Nat) (sec : secret) : GoResult Bytes :=
  match rsaDecryptOAEP priv sec.AESKey with
  | none => .err "decrypt secret"
  | some aesKey =>
    if aesNewCipherOk aesKey then
      if blockSize ≤ sec.Encrypted.length then
        .ok (decryptSecretBody aesKey sec.Encrypted)
      else .panic "slice bounds out of range"
    else .err "invalid key size"

/-- Loop of `allow`: decrypt each accessible record under the acting user's
key and re-encrypt it for the grantee with fresh material. -/
def allowLoop (priv pub : Nat) (rnd : Nat → Bytes × Bytes) :
    List (String × secret) → List (String × secret) → Nat →
    GoResult (List (String × secret))
  | [], gm, _ => .ok gm
  | (k, sec) :: rest, gm, i =>
    match allowDecrypt priv sec with
    | .ok pt =>
      allowLoop priv pub rnd rest
        (insertA gm k (encryptEnvelope pub pt (rnd i).1 (rnd i).2)) (i + 1)
    | .err e => .err e
    | .panic e => .panic e

/-- The `allow` operation (lines 338–447) after the password is obtained:
the grantee must already be a known user, at least one secret of the acting
user must match, and each match is decrypted and re-encrypted under the
grantee's public key. -/
def allow (s : shh) (u : String) (priv : Nat) (grantee secretKey : String)
    (rnd : Nat → Bytes × Bytes) : GoResult shh :=
  match lookupA s.Keys grantee with
  | none => .err "not a user in the project. try `shh add-user`"
  | some pub =>
    match GetSecretsForUser s secretKey u with
    | .ok secs =>
      if secs = [] then .err "no matching secrets which you can access"
      else
        match allowLoop priv pub rnd secs ((lookupA s.Secrets grantee).getD []) 0 with
        | .ok gm => .ok ⟨s.Keys, insertA s.Secrets grantee gm⟩
        | .err e => .err e
        | .panic e => .panic e
    | .err e => .err e
    | .panic e => .panic e

/-- Loop of `set` (lines 253–298): walk every user's secret map; a user is
re-encrypted for exactly when they are the acting user or already hold the
secret name, with a fresh envelope each time; looking up a missing public
key dereferences a nil `pem.Block` (a panic). -/
def setLoop (keys : List (String × Nat)) (u key : String) (pt : Bytes)
    (rnd : Nat → Bytes × Bytes) :
    List (String × List (String × secret)) → Nat →
    GoResult (List (String × List (String × secret)))
  | [], _ => .ok []
  | (v, usecs) :: rest, i =>
    if v = u ∨ (lookupA usecs key).isSome then
      match lookupA keys v with
      | none => .panic "invalid memory address or nil pointer dereference"
      | some pub =>
        match setLoop keys u key pt rnd rest (i + 1) with
        | .ok tl =>
          .ok ((v, insertA usecs key (encryptEnvelope pub pt (rnd i).1 (rnd i).2)) :: tl)
        | .err e => .err e
        | .panic e => .panic e
    else
      match setLoop keys u key pt rnd rest (i + 1) with
      | .ok tl => .ok ((v, usecs) :: tl)
      | .err e => .err e
      | .panic e => .panic e

/-- The `set` operation (lines 230–300): ensure the acting user has a secret
map, then fan the literal new plaintext out to the acting user and every
user already holding the name.  `set` never requests a password and never
decrypts. -/
def set (s : shh) (u key : String) (plaintext : Bytes)
    (rnd : Nat → Bytes × Bytes) : GoResult shh :=
  let secrets0 := if (lookupA s.Secrets u).isSome then s.Secrets
    else insertA s.Secrets u []
  match setLoop s.Keys u key plaintext rnd secrets0 0 with
  | .ok secs => .ok ⟨s.Keys, secs⟩
  | .err e => .err e
  | .panic e => .panic e

/-- Delete each resolved name from a user's secret map
(`for key := range secrets { delete(userSecrets, key) }`). -/
def eraseKeysList (m : List (String × secret)) (ks : List String) :
    List (String × secret) :=
  ks.foldl (fun acc k => eraseA acc k) m

/-- Shared body of `del` (lines 303–333) and `deny` (lines 450–477): resolve
the pattern against the affected user, delete the matched entries, and when
the user's secret map becomes empty remove the user from `Secrets` (never
from `Keys`).  No cryptographic computation occurs. -/
def removeMatched (s : shh) (target pattern : String) : GoResult shh :=
  match GetSecretsForUser s pattern target with
  | .ok matched =>
    let userSecrets := (lookupA s.Secrets target).getD []
    let userSecrets := eraseKeysList userSecrets (matched.map Prod.fst)
    let newSecrets :=
      if userSecrets = [] then eraseA s.Secrets target
      else insertA s.Secrets target userSecrets
    .ok ⟨s.Keys, newSecrets⟩
  | .err e => .err e
  | .panic e => .panic e

/-- The `del` operation (after its single argument is validated): the acting
user's entries matching the pattern are removed. -/
def del (s : shh) (u pattern : String) : GoResult shh := removeMatched s u pattern

/-- The `deny` operation (lines 450–477), argument handling included: more
than two arguments is a reported usage error, one argument defaults the
pattern to the wildcard, and zero arguments evaluates `args[1]` — an index
out of range, a runtime panic. -/
def deny (args : List String) (s : shh) : GoResult shh :=
  if args.length > 2 then .err "bad args: expected `deny $user [$secret]`"
  else
    match args with
    | [] => .panic "index out of range"
    | [u] => removeMatched s u "*"
    | u :: k :: _ => removeMatched s u k

/-- Models the external SHA-1 digest (`crypto/sha1` + hex) as an idealised
collision-free digest; the no-op-edit check relies only on hash equality
coinciding with content equality. -/
def sha1hex (b : Bytes) : Bytes := b

/-- Decryption loop of `edit` (lines 583–607): with at most one match the
plaintext and name default to empty and are overwritten by the single
iteration, which uses the checked decryption path. -/
def editLoop (priv : Nat) : List (String × secret) → GoResult (String × Bytes)
  | [] => .ok ("", [])
  | (k, sec) :: rest =>
    match decryptStoredChecked priv sec with
    | .ok pt => if rest = [] then .ok (k, pt) else editLoop priv rest
    | .err e => .err e
    | .panic e => .panic e

/-- Resolution and decryption phase of `edit` (lines 561–607): resolve the
pattern, reject more than one match, then decrypt. -/
def editPrep (s : shh) (u : String) (priv : Nat) (pattern : String) :
    GoResult (String × Bytes) :=
  match GetSecretsForUser s pattern u with
  | .ok secs =>
    if secs.length > 1 then .err "mulitple secrets found, cannot use *"
    else editLoop priv secs
  | .err e => .err e
  | .panic e => .panic e

/-- Re-encryption loop of `edit` (lines 646–689): every user holding the
name gets a fresh envelope of the new plaintext; a missing public key is a
nil dereference. -/
def editReencrypt (keys : List (String × Nat)) (key : String) (pt : Bytes)
    (rnd : Nat → Bytes × Bytes) :
    List (String × List (String × secret)) → Nat →
    GoResult (List (String × List (String × secret)))
  | [], _ => .ok []
  | (v, usecs) :: rest, i =>
    if (lookupA usecs key).isSome then
      match lookupA keys v with
      | none => .panic "invalid memory address or nil pointer dereference"
      | some pub =>
        match editReencrypt keys key pt rnd rest (i + 1) with
        | .ok tl =>
          .ok ((v, insertA usecs key (encryptEnvelope pub pt (rnd i).1 (rnd i).2)) :: tl)
        | .err e => .err e
        | .panic e => .panic e
    else
      match editReencrypt keys key pt rnd rest (i + 1) with
      | .ok tl => .ok ((v, usecs) :: tl)
      | .err e => .err e
      | .panic e => .panic e

/-- Outcome of `edit`: the resulting manifest, whether it was persisted, and
whether the external editor was invoked. -/
structure editResult where
  manifest : shh
  persisted : Bool
  editorCalled : Bool
deriving DecidableEq

/-- The `edit` operation (lines 531–691) after the password and key pair are
obtained, with the external editor as a black-box function: decrypt,
hand the plaintext to the editor, compare content hashes, exit early without
re-encrypting or persisting when the hash is unchanged, otherwise fan the
new plaintext out to every user holding the name. -/
def edit (s : shh) (u : String) (priv : Nat) (pattern : String)
    (editor : Bytes → Bytes) (rnd : Nat → Bytes × Bytes) : GoResult editResult :=
  match editPrep s u priv pattern with
  | .ok (key, pt) =>
    let newPt := editor pt
    if sha1hex pt = sha1hex newPt then .ok ⟨s, false, true⟩
    else
      match editReencrypt s.Keys key newPt rnd s.Secrets 0 with
      | .ok secs => .ok ⟨⟨s.Keys, secs⟩, true, true⟩
      | .err e => .err e
      | .panic e => .panic e
  | .err e => .err e
  | .panic e => .panic e

/-- Re-wrap one record during `rotate` (lines 744–766): base64-decode the
stored wrapped key, unwrap it with the old private key, re-wrap it under the
new public key, and keep the `Encrypted` field untouched. -/
def rewrapSecret (oldPriv newPub : Nat) (sec : secret) : GoResult secret :=
  match b64decode sec.AESKey with
  | none => .err "decode base64"
  | some byt =>
    match rsaDecryptOAEP oldPriv byt with
    | none => .err "decrypt secret"
    | some aesKey => .ok ⟨b64encode (rsaEncryptOAEP newPub aesKey), sec.Encrypted⟩

/-- Loop of `rotate` over the acting user's records. -/
def rotateLoop (oldPriv newPub : Nat) :
    List (String × secret) → GoResult (List (String × secret))
  | [] => .ok []
  | (k, sec) :: rest =>
    match rewrapSecret oldPriv newPub sec with
    | .ok sec' =>
      match rotateLoop oldPriv newPub rest with
      | .ok tl => .ok ((k, sec') :: tl)
      | .err e => .err e
      | .panic e => .panic e
    | .err e => .err e
    | .panic e => .panic e

/-- The manifest part of `rotate` (lines 695–790): re-wrap every record the
acting user holds and update the acting user's public key.  The key-file
backup dance is file-system work outside the manifest model. -/
def rotate (s : shh) (u : String) (oldPriv newPub : Nat) : GoResult shh :=
  match rotateLoop oldPriv newPub ((lookupA s.Secrets u).getD []) with
  | .ok newSecs =>
    let secrets' :=
      match lookupA s.Secrets u with
      | none => s.Secrets
      | some _ => insertA s.Secrets u newSecs
    .ok ⟨insertA s.Keys u newPub, secrets'⟩
  | .err e => .err e
  | .panic e => .panic e

/-- HTTP methods the daemon claim distinguishes. -/
inductive httpMethod where
  | GET
  | POST
deriving DecidableEq

/-- Status and body of a daemon response. -/
structure serveResponse where
  status : Nat
  body : String
deriving DecidableEq

/-- One request handled by the daemon of `serve` (lines 907–933), returning
the new cached password, whether the expiry timer was restarted, and the
response.  `/ping` answers before taking the lock; `/reset-timer` signals the
timer goroutine and then falls through into the ordinary handling: a GET
writes the cached password back, any other request reads the body, rejects an
empty one, and otherwise caches it as the new password. -/
def handleServe (password : String) (method : httpMethod) (path : String)
    (body : String) : String × Bool × serveResponse :=
  if path = "/ping" then (password, false, ⟨200, ""⟩)
  else
    let reset := path = "/reset-timer"
    match method with
    | .GET => (password, reset, ⟨200, password⟩)
    | .POST =>
      if body = "" then (password, reset, ⟨400, "empty body"⟩)
      else (body, reset, ⟨200, ""⟩)

/-- Concrete 32-byte AES key used by the witnesses. -/
def wAesKey : Bytes := List.replicate 32 7

/-- Concrete 16-byte IV used by the witnesses. -/
def wIv : Bytes := List.replicate 16 3

/-- Concrete stored record: plaintext `[10, 20]` enveloped for key pair 1. -/
def wSecret : secret :=
  ⟨b64encode (rsaEncryptOAEP 1 wAesKey), b64encode (aesCfbEncrypt wAesKey wIv [10, 20])⟩

/-- Concrete manifest: alice (key pair 1) holds secret `db`, bob (key pair 2)
holds nothing. -/
def wShh : shh := ⟨[("alice", 1), ("bob", 2)], [("alice", [("db", wSecret)])]⟩

/-- Concrete random supply for the witnesses. -/
def rnd0 : Nat → Bytes × Bytes :=
  fun i => (List.replicate 32 (i + 40), List.replicate 16 (i + 80))

/-- The record of `wShh` after alice rotates from key pair 1 to key pair 2:
same ciphertext, re-wrapped key. -/
def wSecretRot : secret := ⟨b64encode (rsaEncryptOAEP 2 wAesKey), wSecret.Encrypted⟩

/-- The manifest of `wShh` after alice rotates from key pair 1 to key pair 2. -/
def wShhRot : shh := ⟨[("alice", 2), ("bob", 2)], [("alice", [("db", wSecretRot)])]⟩

/-- Concrete stored record whose ciphertext field decodes to only 3 bytes,
shorter than the 16-byte block size. -/
def wSecretShort : secret := ⟨b64encode (rsaEncryptOAEP 1 wAesKey), b64encode [1, 2, 3]⟩

/-- Concrete manifest holding the malformed short record under alice. -/
def wShhShort : shh := ⟨[("alice", 1), ("bob", 2)], [("alice", [("s", wSecretShort)])]⟩

theorem ofDigits16_toDigitsAux (fuel : Nat) :
    ∀ n : Nat, n ≤ fuel → ofDigits16 (toDigitsAux fuel n) = n := by
  induction fuel with
  | zero =>
    intro n hn
    interval_cases n
    simp [toDigitsAux, ofDigits16]
  | succ fuel ih =>
    intro n hn
    match n with
    | 0 => simp [toDigitsAux, ofDigits16]
    | m + 1 =>
      have hdiv : (m + 1) / 16 ≤ fuel := by
        have h1 : (m + 1) / 16 < m + 1 := Nat.div_lt_self (Nat.succ_pos m) (by norm_num)
        omega
      simp only [toDigitsAux, ofDigits16, ih _ hdiv]
      omega

theorem ofDigits16_toDigits16 (n : Nat) : ofDigits16 (toDigits16 n) = n :=
  ofDigits16_toDigitsAux n n le_rfl

theorem toDigitsAux_lt (fuel : Nat) :
    ∀ n d : Nat, d ∈ toDigitsAux fuel n → d < 16 := by
  induction fuel with
  | zero => intro n d hd; simp [toDigitsAux] at hd
  | succ fuel ih =>
    intro n d hd
    match n with
    | 0 => simp [toDigitsAux] at hd
    | m + 1 =>
      simp only [toDigitsAux, List.mem_cons] at hd
      rcases hd with h | h
      · subst h; exact Nat.mod_lt _ (by norm_num)
      · exact ih _ _ h

theorem toDigits16_lt (n d : Nat) (hd : d ∈ toDigits16 n) : d < 16 :=
  toDigitsAux_lt n n d hd

theorem b64decodeAux_digits (ds : List Nat) (hds : ∀ d ∈ ds, d < 16) :
    ∀ (rest : Bytes) (acc : List Nat),
    b64decodeAux (ds ++ 16 :: rest) acc =
      match b64decodeAux rest [] with
      | some tl => some (ofDigits16 (acc ++ ds) :: tl)
      | none => none := by
  induction ds with
  | nil =>
    intro rest acc
    simp [b64decodeAux]
  | cons d ds ih =>
    intro rest acc
    have hd : d < 16 := hds d (List.mem_cons_self d ds)
    have hds' : ∀ d' ∈ ds, d' < 16 := fun d' h => hds d' (List.mem_cons_of_mem d h)
    simp only [List.cons_append, b64decodeAux, if_pos hd, List.append_eq]
    rw [ih hds' rest (acc ++ [d])]
    simp

theorem b64decode_encode (bs : Bytes) : b64decode (b64encode bs) = some bs := by
  induction bs with
  | nil => rfl
  | cons b bs ih =>
    unfold b64decode at ih ⊢
    simp only [b64encode]
    rw [b64decodeAux_digits (toDigits16 b) (toDigits16_lt b) (b64encode bs) []]
    rw [ih]
    simp [ofDigits16_toDigits16]

theorem cfbXorFrom_involution (key iv : Bytes) :
    ∀ (i : Nat) (data : Bytes),
    cfbXorFrom key iv i (cfbXorFrom key iv i data) = data := by
  intro i data
  induction data generalizing i with
  | nil => rfl
  | cons b bs ih =>
    simp only [cfbXorFrom, ih]
    congr 1
    rw [Nat.xor_assoc, Nat.xor_self, Nat.xor_zero]

theorem cfbXorFrom_length (key iv : Bytes) :
    ∀ (i : Nat) (data : Bytes), (cfbXorFrom key iv i data).length = data.length := by
  intro i data
  induction data generalizing i with
  | nil => rfl
  | cons b bs ih => simp [cfbXorFrom, ih]

theorem take_append_of_length (l₁ l₂ : List Nat) (n : Nat) (h : l₁.length = n) :
    (l₁ ++ l₂).take n = l₁ := by
  subst h
  induction l₁ with
  | nil => rfl
  | cons a l ih => simp [List.take, ih]

theorem drop_append_of_length (l₁ l₂ : List Nat) (n : Nat) (h : l₁.length = n) :
    (l₁ ++ l₂).drop n = l₂ := by
  subst h
  induction l₁ with
  | nil => rfl
  | cons a l ih => simp [List.drop, ih]

theorem decryptSecretBody_encrypt (key iv pt : Bytes) (hiv : iv.length = blockSize) :
    decryptSecretBody key (aesCfbEncrypt key iv pt) = pt := by
  unfold decryptSecretBody aesCfbEncrypt
  rw [take_append_of_length _ _ _ hiv, drop_append_of_length _ _ _ hiv]
  exact cfbXorFrom_involution key iv 0 pt

theorem aesCfbEncrypt_length (key iv pt : Bytes) :
    (aesCfbEncrypt key iv pt).length = iv.length + pt.length := by
  simp [aesCfbEncrypt, cfbXor, cfbXorFrom_length]

theorem padTrunc_length (n : Nat) (l : Bytes) : (padTrunc n l).length = n := by
  simp [padTrunc]

theorem lookupA_insertA_self {α β : Type} [DecidableEq α]
    (l : List (α × β)) (k : α) (v : β) : lookupA (insertA l k v) k = some v := by
  induction l with
  | nil => simp [insertA, lookupA]
  | cons p rest ih =>
    obtain ⟨k', v'⟩ := p
    by_cases h : k' = k
    · simp [insertA, lookupA, h]
    · simp [insertA, lookupA, h, ih]

theorem lookupA_insertA_ne {α β : Type} [DecidableEq α]
    (l : List (α × β)) (k k' : α) (v : β) (h : k' ≠ k) :
    lookupA (insertA l k v) k' = lookupA l k' := by
  have hk : k ≠ k' := fun hh => h hh.symm
  induction l with
  | nil => simp [insertA, lookupA, hk]
  | cons p rest ih =>
    obtain ⟨k₀, v₀⟩ := p
    by_cases h₀ : k₀ = k
    · subst h₀
      simp [insertA, lookupA, hk]
    · by_cases h₁ : k₀ = k'
      · simp [insertA, lookupA, h₀, h₁, h]
      · simp [insertA, lookupA, h₀, h₁, ih]

theorem lookupA_eraseA_ne {α β : Type} [DecidableEq α]
    (l : List (α × β)) (k k' : α) (h : k' ≠ k) :
    lookupA (eraseA l k) k' = lookupA l k' := by
  have hk : k ≠ k' := fun hh => h hh.symm
  induction l with
  | nil => simp [eraseA]
  | cons p rest ih =>
    obtain ⟨k₀, v₀⟩ := p
    by_cases h₀ : k₀ = k
    · subst h₀
      simp [eraseA, lookupA, hk]
    · by_cases h₁ : k₀ = k'
      · simp [eraseA, lookupA, h₀, h₁, h]
      · simp [eraseA, lookupA, h₀, h₁, ih]

theorem lookupA_eraseA_self {α β : Type} [DecidableEq α]
    (l : List (α × β)) (k : α) (hnd : (l.map Prod.fst).Nodup) :
    lookupA (eraseA l k) k = none := by
  induction l with
  | nil => simp [eraseA, lookupA]
  | cons p rest ih =>
    obtain ⟨k₀, v₀⟩ := p
    simp only [List.map_cons, List.nodup_cons] at hnd
    by_cases h₀ : k₀ = k
    · subst h₀
      simp only [eraseA, if_pos rfl]
      -- k₀ does not occur among the remaining keys
      clear ih
      induction rest with
      | nil => simp [lookupA]
      | cons q rest' ih' =>
        obtain ⟨k₁, v₁⟩ := q
        simp only [List.map_cons, List.mem_cons, List.nodup_cons] at hnd
        have hne : k₁ ≠ k₀ := fun hh => hnd.1 (Or.inl hh.symm)
        simp only [lookupA, if_neg hne]
        exact ih' ⟨fun hh => hnd.1 (Or.inr hh), hnd.2.2⟩
    · simp only [eraseA, if_neg h₀, lookupA, if_neg h₀]
      exact ih hnd.2

theorem eraseA_keys_sublist {α β : Type} [DecidableEq α]
    (l : List (α × β)) (k : α) :
    ((eraseA l k).map Prod.fst).Sublist (l.map Prod.fst) := by
  induction l with
  | nil => simp [eraseA]
  | cons p rest ih =>
    obtain ⟨k₀, v₀⟩ := p
    by_cases h₀ : k₀ = k
    · simp only [eraseA, if_pos h₀, List.map_cons]
      exact (List.sublist_cons_self _ _)
    · simp only [eraseA, if_neg h₀, List.map_cons]
      exact ih.cons₂ _

theorem eraseA_nodup {α β : Type} [DecidableEq α]
    (l : List (α × β)) (k : α) (hnd : (l.map Prod.fst).Nodup) :
    ((eraseA l k).map Prod.fst).Nodup :=
  (eraseA_keys_sublist l k).nodup hnd

theorem lookupA_mem {α β : Type} [DecidableEq α]
    (l : List (α × β)) (k : α) (v : β) (h : lookupA l k = some v) : (k, v) ∈ l := by
  induction l with
  | nil => simp [lookupA] at h
  | cons p rest ih =>
    obtain ⟨k₀, v₀⟩ := p
    by_cases h₀ : k₀ = k
    · subst h₀
      simp [lookupA] at h
      subst h
      exact List.mem_cons_self _ _
    · simp only [lookupA, if_neg h₀] at h
      exact List.mem_cons_of_mem _ (ih h)

theorem mem_insertA {α β : Type} [DecidableEq α]
    (l : List (α × β)) (k : α) (v : β) (p : α × β) (hp : p ∈ insertA l k v) :
    p ∈ l ∨ p = (k, v) := by
  induction l with
  | nil => simp [insertA] at hp; simp [hp]
  | cons q rest ih =>
    obtain ⟨k₀, v₀⟩ := q
    by_cases h₀ : k₀ = k
    · simp only [insertA, if_pos h₀, List.mem_cons] at hp
      rcases hp with h | h
      · exact Or.inr h
      · exact Or.inl (List.mem_cons_of_mem _ h)
    · simp only [insertA, if_neg h₀, List.mem_cons] at hp
      rcases hp with h | h
      · exact Or.inl (h ▸ List.mem_cons_self _ _)
      · rcases ih h with h' | h'
        · exact Or.inl (List.mem_cons_of_mem _ h')
        · exact Or.inr h'

theorem decodeSecrets_keys (l L : List (String × secret))
    (h : decodeSecrets l = .ok L) : L.map Prod.fst = l.map Prod.fst := by
  induction l generalizing L with
  | nil =>
    simp only [decodeSecrets, GoResult.ok.injEq] at h
    subst h
    rfl
  | cons p rest ih =>
    obtain ⟨k, sec⟩ := p
    simp only [decodeSecrets] at h
    cases hd : decodeSecret sec with
    | ok d =>
      rw [hd] at h
      cases hr : decodeSecrets rest with
      | ok ds =>
        rw [hr] at h
        simp only [GoResult.ok.injEq] at h
        subst h
        simp [ih ds hr]
      | err e => rw [hr] at h; cases h
      | panic e => rw [hr] at h; cases h
    | err e => rw [hd] at h; cases h
    | panic e => rw [hd] at h; cases h

theorem eraseKeysList_cons (m : List (String × secret)) (k : String) (ks : List String) :
    eraseKeysList m (k :: ks) = eraseKeysList (eraseA m k) ks := rfl

theorem eraseKeysList_nil (m : List (String × secret)) : eraseKeysList m [] = m := rfl

theorem eraseKeysList_self_nil (m : List (String × secret))
    (hnd : (m.map Prod.fst).Nodup) : eraseKeysList m (m.map Prod.fst) = [] := by
  induction m with
  | nil => rfl
  | cons p rest ih =>
    obtain ⟨k₀, v₀⟩ := p
    simp only [List.map_cons, List.nodup_cons] at hnd
    simp only [List.map_cons]
    rw [eraseKeysList_cons]
    simp only [eraseA, if_pos rfl]
    exact ih hnd.2

theorem decodeSecret_encryptEnvelope (pub : Nat) (pt kr ir : Bytes) :
    decodeSecret (encryptEnvelope pub pt kr ir) =
      .ok ⟨rsaEncryptOAEP pub (padTrunc 32 kr),
           aesCfbEncrypt (padTrunc 32 kr) (padTrunc blockSize ir) pt⟩ := by
  unfold decodeSecret encryptEnvelope
  rw [b64decode_encode, b64decode_encode]

theorem decryptStoredChecked_envelope (pub : Nat) (pt kr ir : Bytes) :
    decryptStoredChecked pub
      ⟨rsaEncryptOAEP pub (padTrunc 32 kr),
       aesCfbEncrypt (padTrunc 32 kr) (padTrunc blockSize ir) pt⟩ = .ok pt := by
  have hk : (padTrunc 32 kr).length = 32 := padTrunc_length _ _
  have hiv : (padTrunc blockSize ir).length = blockSize := padTrunc_length _ _
  have hok : aesNewCipherOk (padTrunc 32 kr) = true := by
    simp [aesNewCipherOk, hk]
  have hlen : ¬ (aesCfbEncrypt (padTrunc 32 kr) (padTrunc blockSize ir) pt).length
      < blockSize := by
    rw [aesCfbEncrypt_length, hiv]
    omega
  unfold decryptStoredChecked
  simp only [rsaEncryptOAEP, rsaDecryptOAEP, if_pos rfl, hok, if_true, if_neg hlen]
  rw [decryptSecretBody_encrypt _ _ _ hiv]

theorem getDecrypt_encryptEnvelope (pub : Nat) (pt kr ir : Bytes) :
    getDecrypt pub (encryptEnvelope pub pt kr ir) = .ok pt := by
  unfold getDecrypt
  rw [decodeSecret_encryptEnvelope]
  exact decryptStoredChecked_envelope pub pt kr ir

theorem rewrapSecret_Encrypted (o n : Nat) (sec sec' : secret)
    (h : rewrapSecret o n sec = .ok sec') : sec'.Encrypted = sec.Encrypted := by
  unfold rewrapSecret at h
  split at h
  · cases h
  · split at h
    · cases h
    · simp only [GoResult.ok.injEq] at h
      subst h
      rfl

theorem getDecrypt_rewrap (o n : Nat) (sec sec' : secret) (pt : Bytes)
    (hr : rewrapSecret o n sec = .ok sec')
    (hg : getDecrypt o sec = .ok pt) : getDecrypt n sec' = .ok pt := by
  unfold rewrapSecret at hr
  split at hr
  · cases hr
  case _ wa hda =>
    split at hr
    · cases hr
    case _ aesKey hu =>
      simp only [GoResult.ok.injEq] at hr
      subst hr
      have hwa : wa = o :: aesKey := by
        cases wa with
        | nil => simp [rsaDecryptOAEP] at hu
        | cons p m =>
          simp only [rsaDecryptOAEP] at hu
          by_cases hp : p = o
          · rw [if_pos hp] at hu
            simp only [Option.some.injEq] at hu
            rw [hp, hu]
          · rw [if_neg hp] at hu; cases hu
      unfold getDecrypt decodeSecret at hg ⊢
      rw [hda] at hg
      simp only [b64decode_encode]
      cases hde : b64decode sec.Encrypted with
      | none => rw [hde] at hg; simp at hg
      | some we =>
        rw [hde] at hg
        simp only at hg ⊢
        unfold decryptStoredChecked at hg ⊢
        rw [hu] at hg
        simp only [rsaEncryptOAEP, rsaDecryptOAEP, if_pos rfl]
        exact hg

theorem rotateLoop_lookup (o n : Nat) (l L : List (String × secret))
    (h : rotateLoop o n l = .ok L) (name : String) :
    (lookupA l name = none → lookupA L name = none) ∧
    (∀ sec, lookupA l name = some sec →
      ∃ sec', rewrapSecret o n sec = .ok sec' ∧ lookupA L name = some sec') := by
  induction l generalizing L with
  | nil =>
    simp only [rotateLoop, GoResult.ok.injEq] at h
    subst h
    exact ⟨fun _ => rfl, fun sec hs => by simp [lookupA] at hs⟩
  | cons p rest ih =>
    obtain ⟨k, sec₀⟩ := p
    simp only [rotateLoop] at h
    cases hw : rewrapSecret o n sec₀ with
    | ok sec₀' =>
      rw [hw] at h
      cases hr : rotateLoop o n rest with
      | ok tl =>
        rw [hr] at h
        simp only [GoResult.ok.injEq] at h
        subst h
        by_cases hk : k = name
        · subst hk
          constructor
          · intro hn
            simp [lookupA] at hn
          · intro sec hs
            simp [lookupA] at hs
            subst hs
            exact ⟨sec₀', hw, by simp [lookupA]⟩
        · have hrest := ih tl hr
          constructor
          · intro hn
            simp only [lookupA, if_neg hk] at hn ⊢
            exact hrest.1 hn
          · intro sec hs
            simp only [lookupA, if_neg hk] at hs ⊢
            exact hrest.2 sec hs
      | err e => rw [hr] at h; cases h
      | panic e => rw [hr] at h; cases h
    | err e => rw [hw] at h; cases h
    | panic e => rw [hw] at h; cases h

theorem setLoop_spec (keys : List (String × Nat)) (u key : String) (pt : Bytes)
    (rnd : Nat → Bytes × Bytes) :
    ∀ (l : List (String × List (String × secret))) (i : Nat),
    (∀ p ∈ l, (p.1 = u ∨ (lookupA p.2 key).isSome) → (lookupA keys p.1).isSome) →
    ∃ L, setLoop keys u key pt rnd l i = .ok L ∧
      ∀ v : String,
        (lookupA l v = none → lookupA L v = none) ∧
        (∀ usecs, lookupA l v = some usecs →
          ((v = u ∨ (lookupA usecs key).isSome) →
            ∃ j pub, lookupA keys v = some pub ∧
              lookupA L v = some (insertA usecs key
                (encryptEnvelope pub pt (rnd j).1 (rnd j).2))) ∧
          (¬(v = u ∨ (lookupA usecs key).isSome) → lookupA L v = some usecs)) := by
  intro l
  induction l with
  | nil =>
    intro i hk
    refine ⟨[], rfl, ?_⟩
    intro v
    exact ⟨fun _ => rfl, fun usecs hs => by simp [lookupA] at hs⟩
  | cons p rest ih =>
    intro i hk
    obtain ⟨w, m⟩ := p
    have hkrest : ∀ p ∈ rest,
        (p.1 = u ∨ (lookupA p.2 key).isSome) → (lookupA keys p.1).isSome :=
      fun p hp => hk p (List.mem_cons_of_mem _ hp)
    obtain ⟨L', hL', hspec⟩ := ih (i + 1) hkrest
    by_cases hc : w = u ∨ (lookupA m key).isSome
    · have hksome : (lookupA keys w).isSome := hk (w, m) (List.mem_cons_self _ _) hc
      obtain ⟨pub, hpub⟩ := Option.isSome_iff_exists.mp hksome
      refine ⟨(w, insertA m key (encryptEnvelope pub pt (rnd i).1 (rnd i).2)) :: L',
        ?_, ?_⟩
      · simp only [setLoop, if_pos hc, hpub, hL']
      · intro v
        by_cases hv : w = v
        · subst hv
          constructor
          · intro hn; simp [lookupA] at hn
          · intro usecs hs
            simp [lookupA] at hs
            subst hs
            constructor
            · intro _
              exact ⟨i, pub, hpub, by simp [lookupA]⟩
            · intro hnc
              exact absurd hc hnc
        · constructor
          · intro hn
            simp only [lookupA, if_neg hv] at hn ⊢
            exact (hspec v).1 hn
          · intro usecs hs
            simp only [lookupA, if_neg hv] at hs ⊢
            exact (hspec v).2 usecs hs
    · refine ⟨(w, m) :: L', ?_, ?_⟩
      · simp only [setLoop, if_neg hc, hL']
      · intro v
        by_cases hv : w = v
        · subst hv
          constructor
          · intro hn; simp [lookupA] at hn
          · intro usecs hs
            simp [lookupA] at hs
            subst hs
            constructor
            · intro hcc; exact absurd hcc hc
            · intro _; simp [lookupA]
        · constructor
          · intro hn
            simp only [lookupA, if_neg hv] at hn ⊢
            exact (hspec v).1 hn
          · intro usecs hs
            simp only [lookupA, if_neg hv] at hs ⊢
            exact (hspec v).2 usecs hs

theorem removeMatched_ok (s : shh) (t pat : String) (s' : shh)
    (h : removeMatched s t pat = .ok s') :
    ∃ M, GetSecretsForUser s pat t = .ok M ∧
      s'.Keys = s.Keys ∧
      s'.Secrets =
        (if eraseKeysList ((lookupA s.Secrets t).getD []) (M.map Prod.fst) = []
          then eraseA s.Secrets t
          else insertA s.Secrets t
            (eraseKeysList ((lookupA s.Secrets t).getD []) (M.map Prod.fst))) := by
  unfold removeMatched at h
  cases hres : GetSecretsForUser s pat t with
  | ok M =>
    rw [hres] at h
    simp only [GoResult.ok.injEq] at h
    subst h
    exact ⟨M, rfl, rfl, rfl⟩
  | err e => rw [hres] at h; cases h
  | panic e => rw [hres] at h; cases h

theorem deny_two_args (t n : String) (s : shh) :
    deny [t, n] s = removeMatched s t n := rfl

/-- C1: every secret the rotating user held before `rotate` is still present
afterwards and decrypts, through the same base64-decoded interpretation of the
stored wrapped-key field that `get` uses, to the same plaintext under the new
key pair as it did under the old one. -/
theorem rotate_preserves_get_plaintext (s s' : shh) (u : String) (oldKey newKey : Nat)
    (hrot : rotate s u oldKey newKey = .ok s')
    (name : String) (sec : secret) (pt : Bytes)
    (hsec : secretOf s u name = some sec)
    (hget : getDecrypt oldKey sec = .ok pt) :
    ∃ sec', secretOf s' u name = some sec' ∧ getDecrypt newKey sec' = .ok pt := by
  unfold rotate at hrot
  unfold secretOf at hsec
  cases hm : lookupA s.Secrets u with
  | none => rw [hm] at hsec; cases hsec
  | some m =>
    rw [hm] at hsec
    simp only [hm, Option.getD_some] at hrot
    cases hloop : rotateLoop oldKey newKey m with
    | ok L =>
      rw [hloop] at hrot
      simp only [GoResult.ok.injEq] at hrot
      subst hrot
      obtain ⟨sec', hw, hL⟩ := (rotateLoop_lookup oldKey newKey m L hloop name).2 sec hsec
      refine ⟨sec', ?_, getDecrypt_rewrap _ _ _ _ _ hw hget⟩
      unfold secretOf
      simp only [lookupA_insertA_self]
      exact hL
    | err e => rw [hloop] at hrot; cases hrot
    | panic e => rw [hloop] at hrot; cases hrot

/-- C1 witness: rotating alice's concrete manifest from key pair 1 to key
pair 2 keeps secret `db` decryptable to the same plaintext. -/
theorem rotate_preserves_get_plaintext_witness :
    (rotate wShh "alice" 1 2 = .ok wShhRot ∧
      secretOf wShh "alice" "db" = some wSecret ∧
      getDecrypt 1 wSecret = .ok [10, 20]) ∧
    (∃ sec', secretOf wShhRot "alice" "db" = some sec' ∧
      getDecrypt 2 sec' = .ok [10, 20]) :=
  ⟨⟨by decide, by decide, by decide⟩,
    rotate_preserves_get_plaintext wShh wShhRot "alice" 1 2 (by decide)
      "db" wSecret [10, 20] (by decide) (by decide)⟩

/-- C9: `rotate` keeps every ciphertext field of the acting user byte for
byte, preserves the domain of their secret map, leaves every other user's
records untouched, and updates exactly the acting user's public key. -/
theorem rotate_frame (s s' : shh) (u : String) (oldKey newKey : Nat)
    (h : rotate s u oldKey newKey = .ok s') :
    (∀ name sec, secretOf s u name = some sec →
      ∃ sec', secretOf s' u name = some sec' ∧ sec'.Encrypted = sec.Encrypted) ∧
    (∀ name, secretOf s u name = none → secretOf s' u name = none) ∧
    (∀ v, v ≠ u → lookupA s'.Secrets v = lookupA s.Secrets v) ∧
    lookupA s'.Keys u = some newKey ∧
    (∀ v, v ≠ u → lookupA s'.Keys v = lookupA s.Keys v) := by
  unfold rotate at h
  cases hm : lookupA s.Secrets u with
  | none =>
    simp only [hm, Option.getD_none, rotateLoop, GoResult.ok.injEq] at h
    subst h
    refine ⟨?_, ?_, ?_, ?_, ?_⟩
    · intro name sec hsec
      unfold secretOf at hsec
      rw [hm] at hsec
      cases hsec
    · intro name _
      unfold secretOf
      simp only [hm]
    · intro v _
      rfl
    · exact lookupA_insertA_self _ _ _
    · intro v hv
      exact lookupA_insertA_ne _ _ _ _ hv
  | some m =>
    simp only [hm, Option.getD_some] at h
    cases hloop : rotateLoop oldKey newKey m with
    | ok L =>
      rw [hloop] at h
      simp only [GoResult.ok.injEq] at h
      subst h
      refine ⟨?_, ?_, ?_, ?_, ?_⟩
      · intro name sec hsec
        unfold secretOf at hsec
        rw [hm] at hsec
        obtain ⟨sec', hw, hL⟩ := (rotateLoop_lookup oldKey newKey m L hloop name).2 sec hsec
        refine ⟨sec', ?_, rewrapSecret_Encrypted _ _ _ _ hw⟩
        unfold secretOf
        simp only [lookupA_insertA_self]
        exact hL
      · intro name hnone
        unfold secretOf at hnone ⊢
        rw [hm] at hnone
        simp only [lookupA_insertA_self]
        exact (rotateLoop_lookup oldKey newKey m L hloop name).1 hnone
      · intro v hv
        exact lookupA_insertA_ne _ _ _ _ hv
      · exact lookupA_insertA_self _ _ _
      · intro v hv
        exact lookupA_insertA_ne _ _ _ _ hv
    | err e => rw [hloop] at h; cases h
    | panic e => rw [hloop] at h; cases h

/-- C9 witness: rotating alice's concrete manifest keeps the ciphertext of
`db`, leaves bob alone and swaps in the new public key. -/
theorem rotate_frame_witness :
    (rotate wShh "alice" 1 2 = .ok wShhRot) ∧
    ((∀ name sec, secretOf wShh "alice" name = some sec →
      ∃ sec', secretOf wShhRot "alice" name = some sec' ∧
        sec'.Encrypted = sec.Encrypted) ∧
    (∀ name, secretOf wShh "alice" name = none →
      secretOf wShhRot "alice" name = none) ∧
    (∀ v, v ≠ "alice" → lookupA wShhRot.Secrets v = lookupA wShh.Secrets v) ∧
    lookupA wShhRot.Keys "alice" = some 2 ∧
    (∀ v, v ≠ "alice" → lookupA wShhRot.Keys v = lookupA wShh.Keys v)) :=
  ⟨by decide, rotate_frame wShh wShhRot "alice" 1 2 (by decide)⟩

/-- C2: on a stored record whose ciphertext field is shorter than one cipher
block, `get` reports the error the claim requires, but `allow` reaches the
IV-slicing branch without any length check and panics with a slice bounds
violation instead of returning a reported error. -/
theorem allow_short_ciphertext_panics :
    allow wShhShort "alice" 1 "bob" "s" rnd0 = .panic "slice bounds out of range" ∧
    get wShhShort "alice" 1 "s" = .err "encrypted secret too short" :=
  ⟨by decide, by decide⟩

/-- C4: `deny` invoked with zero arguments evaluates `args[1]` inside the
else branch of the argument-count analysis and panics with an index out of
range instead of reporting a usage error. -/
theorem deny_no_args_panics :
    deny [] wShh = .panic "index out of range" := by decide

/-- C3 counterexample: a POST to `/reset-timer` with the non-empty body
`"newpw"` restarts the timer but also overwrites the cached password, so the
handler does not leave the password unchanged for every method and body. -/
theorem resetTimer_post_overwrites_password :
    handleServe "oldpw" .POST "/reset-timer" "newpw" =
      ("newpw", true, ⟨200, ""⟩) ∧ ("newpw" : String) ≠ "oldpw" := by
  constructor
  · decide
  · decide

/-- C3 amended: every request to `/reset-timer`, by GET or POST and with any
body, restarts the expiry window; the cached password is unchanged unless the
request is a POST with a non-empty body, in which case it is set to the
body. -/
theorem resetTimer_restarts_password_conditional (pw body : String)
    (method : httpMethod) :
    (handleServe pw method "/reset-timer" body).2.1 = true ∧
    (handleServe pw method "/reset-timer" body).1 =
      (if method = .POST ∧ body ≠ "" then body else pw) := by
  have hping : ("/reset-timer" : String) ≠ "/ping" := by decide
  cases method with
  | GET => simp [handleServe, hping]
  | POST =>
    by_cases hb : body = ""
    · simp [handleServe, hping, hb]
    · simp [handleServe, hping, hb]

theorem set_def (s : shh) (u key : String) (pt : Bytes)
    (rnd : Nat → Bytes × Bytes) :
    set s u key pt rnd =
      (match setLoop s.Keys u key pt rnd
          (if (lookupA s.Secrets u).isSome then s.Secrets
            else insertA s.Secrets u []) 0 with
        | .ok secs => .ok ⟨s.Keys, secs⟩
        | .err e => .err e
        | .panic e => .panic e) := rfl

/-- C5: after `set name value`, exactly the acting user and every user who
already held the name have a fresh envelope decrypting to the new value under
their own key (the envelope is an explicit function of only the public key,
the new plaintext and the fresh randomness — no decryption of the previous
ciphertext is involved), and nobody else gains an entry. -/
theorem set_fanout_exact (s : shh) (u key : String) (pt : Bytes)
    (rnd : Nat → Bytes × Bytes)
    (hukey : (lookupA s.Keys u).isSome)
    (hkeys : ∀ p ∈ s.Secrets, (lookupA p.2 key).isSome →
      (lookupA s.Keys p.1).isSome) :
    ∃ s', set s u key pt rnd = .ok s' ∧
      (∀ v pub, lookupA s.Keys v = some pub →
        (v = u ∨ (secretOf s v key).isSome) →
        ∃ j, secretOf s' v key =
            some (encryptEnvelope pub pt (rnd j).1 (rnd j).2) ∧
          getDecrypt pub (encryptEnvelope pub pt (rnd j).1 (rnd j).2) = .ok pt) ∧
      (∀ v, v ≠ u → secretOf s v key = none → secretOf s' v key = none) := by
  have hk0 : ∀ p ∈ (if (lookupA s.Secrets u).isSome then s.Secrets
      else insertA s.Secrets u []),
      (p.1 = u ∨ (lookupA p.2 key).isSome) → (lookupA s.Keys p.1).isSome := by
    intro p hp hc
    by_cases hu : (lookupA s.Secrets u).isSome
    · rw [if_pos hu] at hp
      rcases hc with hc | hc
      · rw [hc]; exact hukey
      · exact hkeys p hp hc
    · rw [if_neg hu] at hp
      rcases mem_insertA _ _ _ _ hp with hmem | heq
      · rcases hc with hc | hc
        · rw [hc]; exact hukey
        · exact hkeys p hmem hc
      · subst heq
        exact hukey
  obtain ⟨L, hL, hspec⟩ := setLoop_spec s.Keys u key pt rnd _ 0 hk0
  refine ⟨⟨s.Keys, L⟩, ?_, ?_, ?_⟩
  · rw [set_def]
    simp only [hL]
  · intro v pub hpub hv
    have hl : ∃ usecs,
        lookupA (if (lookupA s.Secrets u).isSome then s.Secrets
          else insertA s.Secrets u []) v = some usecs ∧
        (v = u ∨ (lookupA usecs key).isSome) := by
      by_cases hvu : v = u
      · subst hvu
        by_cases hu : (lookupA s.Secrets v).isSome
        · obtain ⟨m₀, hm₀⟩ := Option.isSome_iff_exists.mp hu
          exact ⟨m₀, by rw [if_pos hu]; exact hm₀, Or.inl rfl⟩
        · refine ⟨[], ?_, Or.inl rfl⟩
          rw [if_neg hu]
          exact lookupA_insertA_self _ _ _
      · rcases hv with hv | hv
        · exact absurd hv hvu
        · cases hm : lookupA s.Secrets v with
          | none => simp [secretOf, hm] at hv
          | some m =>
            simp only [secretOf, hm] at hv
            refine ⟨m, ?_, Or.inr hv⟩
            by_cases hu : (lookupA s.Secrets u).isSome
            · rw [if_pos hu]; exact hm
            · rw [if_neg hu, lookupA_insertA_ne _ _ _ _ hvu]
              exact hm
    obtain ⟨usecs, hlu, hcond⟩ := hl
    obtain ⟨j, pub', hpub', hLv⟩ := ((hspec v).2 usecs hlu).1 hcond
    rw [hpub] at hpub'
    simp only [Option.some.injEq] at hpub'
    subst hpub'
    refine ⟨j, ?_, getDecrypt_encryptEnvelope _ _ _ _⟩
    simp only [secretOf, hLv]
    exact lookupA_insertA_self _ _ _
  · intro v hvu hnone
    cases hm : lookupA s.Secrets v with
    | none =>
      have h0 : lookupA (if (lookupA s.Secrets u).isSome then s.Secrets
          else insertA s.Secrets u []) v = none := by
        by_cases hu : (lookupA s.Secrets u).isSome
        · rw [if_pos hu]; exact hm
        · rw [if_neg hu, lookupA_insertA_ne _ _ _ _ hvu]; exact hm
      have hLn := (hspec v).1 h0
      simp only [secretOf, hLn]
    | some m =>
      have hmk : lookupA m key = none := by
        simp only [secretOf, hm] at hnone
        exact hnone
      have h0 : lookupA (if (lookupA s.Secrets u).isSome then s.Secrets
          else insertA s.Secrets u []) v = some m := by
        by_cases hu : (lookupA s.Secrets u).isSome
        · rw [if_pos hu]; exact hm
        · rw [if_neg hu, lookupA_insertA_ne _ _ _ _ hvu]; exact hm
      have hcond : ¬(v = u ∨ (lookupA m key).isSome) := by
        rintro (hc | hc)
        · exact hvu hc
        · rw [hmk] at hc; simp at hc
      have hLv := ((hspec v).2 m h0).2 hcond
      simp only [secretOf, hLv]
      exact hmk

/-- C5 witness: bob sets `db` (which alice already holds) in the concrete
manifest: both get fresh envelopes of the new value, nobody else does. -/
theorem set_fanout_exact_witness :
    ((lookupA wShh.Keys "bob").isSome ∧
      (∀ p ∈ wShh.Secrets, (lookupA p.2 "db").isSome →
        (lookupA wShh.Keys p.1).isSome)) ∧
    (∃ s', set wShh "bob" "db" [9] rnd0 = .ok s' ∧
      (∀ v pub, lookupA wShh.Keys v = some pub →
        (v = "bob" ∨ (secretOf wShh v "db").isSome) →
        ∃ j, secretOf s' v "db" =
            some (encryptEnvelope pub [9] (rnd0 j).1 (rnd0 j).2) ∧
          getDecrypt pub (encryptEnvelope pub [9] (rnd0 j).1 (rnd0 j).2) =
            .ok [9]) ∧
      (∀ v, v ≠ "bob" → secretOf wShh v "db" = none →
        secretOf s' v "db" = none)) :=
  ⟨⟨by decide, by decide⟩,
    set_fanout_exact wShh "bob" "db" [9] rnd0 (by decide) (by decide)⟩

/-- C6: when the editor returns content whose hash equals the hash of the
decrypted plaintext, `edit` performs no re-encryption and does not persist:
the resulting manifest is the input manifest itself, byte for byte. -/
theorem edit_noop_identical_manifest (s : shh) (u : String) (priv : Nat)
    (pattern : String) (editor : Bytes → Bytes) (rnd : Nat → Bytes × Bytes)
    (key : String) (pt : Bytes)
    (hprep : editPrep s u priv pattern = .ok (key, pt))
    (hhash : sha1hex (editor pt) = sha1hex pt) :
    edit s u priv pattern editor rnd = .ok ⟨s, false, true⟩ := by
  unfold edit
  simp only [hprep]
  rw [if_pos hhash.symm]

/-- C6 witness: alice edits `db` in the concrete manifest and the editor
saves without changes; the manifest comes back identical and unpersisted. -/
theorem edit_noop_identical_manifest_witness :
    (editPrep wShh "alice" 1 "db" = .ok ("db", [10, 20]) ∧
      sha1hex ((fun b => b) [10, 20]) = sha1hex [10, 20]) ∧
    edit wShh "alice" 1 "db" (fun b => b) rnd0 = .ok ⟨wShh, false, true⟩ :=
  ⟨⟨by decide, by decide⟩,
    edit_noop_identical_manifest wShh "alice" 1 "db" (fun b => b) rnd0
      "db" [10, 20] (by decide) (by decide)⟩

/-- C7: after `deny user name` the target no longer resolves the name, every
other user's entries (for that name and all others) are untouched and still
decrypt exactly as before, and the keys mapping is unchanged; the operation
itself involves no unwrap, decrypt or re-encrypt. -/
theorem deny_revokes_capability_only (s s' : shh) (target name : String)
    (hwf : wfShh s)
    (h : deny [target, name] s = .ok s') :
    secretOf s' target name = none ∧
    (∀ v, v ≠ target → lookupA s'.Secrets v = lookupA s.Secrets v) ∧
    s'.Keys = s.Keys ∧
    (∀ v n2 sec priv ptv, v ≠ target → secretOf s v n2 = some sec →
      getDecrypt priv sec = .ok ptv →
      secretOf s' v n2 = some sec ∧ getDecrypt priv sec = .ok ptv) := by
  rw [deny_two_args] at h
  obtain ⟨M, hres, hkeys, hsecs⟩ := removeMatched_ok s target name s' h
  have hMk : M.map Prod.fst = (matchedStored s name target).map Prod.fst :=
    decodeSecrets_keys _ _ hres
  have hndstored : (((lookupA s.Secrets target).getD []).map Prod.fst).Nodup := by
    cases hm : lookupA s.Secrets target with
    | none => simp
    | some m =>
      simp only [Option.getD_some]
      exact hwf.2 (target, m) (lookupA_mem _ _ _ hm)
  have hEnone : lookupA (eraseKeysList ((lookupA s.Secrets target).getD [])
      (M.map Prod.fst)) name = none := by
    rw [hMk]
    by_cases hp : name = "*"
    · simp only [matchedStored, if_pos hp]
      rw [hp, eraseKeysList_self_nil _ hndstored]
      rfl
    · simp only [matchedStored, if_neg hp]
      cases hl : lookupA ((lookupA s.Secrets target).getD []) name with
      | some sec =>
        simp only [hl, List.map_cons, List.map_nil]
        rw [eraseKeysList_cons, eraseKeysList_nil]
        exact lookupA_eraseA_self _ _ hndstored
      | none =>
        simp only [hl, List.map_nil]
        rw [eraseKeysList_nil]
        exact hl
  have hc2 : ∀ v, v ≠ target → lookupA s'.Secrets v = lookupA s.Secrets v := by
    intro v hv
    rw [hsecs]
    by_cases hE : eraseKeysList ((lookupA s.Secrets target).getD [])
        (M.map Prod.fst) = []
    · rw [if_pos hE]; exact lookupA_eraseA_ne _ _ _ hv
    · rw [if_neg hE]; exact lookupA_insertA_ne _ _ _ _ hv
  refine ⟨?_, hc2, hkeys, ?_⟩
  · by_cases hE : eraseKeysList ((lookupA s.Secrets target).getD [])
        (M.map Prod.fst) = []
    · rw [hE] at hEnone
      simp only [secretOf]
      rw [hsecs, if_pos hE]
      simp only [lookupA_eraseA_self _ _ hwf.1]
    · simp only [secretOf]
      rw [hsecs, if_neg hE]
      simp only [lookupA_insertA_self]
      exact hEnone
  · intro v n2 sec priv ptv hv hsec hdec
    refine ⟨?_, hdec⟩
    simp only [secretOf] at hsec ⊢
    rw [hc2 v hv]
    exact hsec

/-- C7 witness: denying alice access to `db` in the concrete manifest empties
her map and touches nothing else. -/
theorem deny_revokes_capability_only_witness :
    (wfShh wShh ∧ deny ["alice", "db"] wShh = .ok ⟨wShh.Keys, []⟩) ∧
    (secretOf (⟨wShh.Keys, []⟩ : shh) "alice" "db" = none ∧
      (∀ v, v ≠ "alice" →
        lookupA (⟨wShh.Keys, []⟩ : shh).Secrets v = lookupA wShh.Secrets v) ∧
      (⟨wShh.Keys, []⟩ : shh).Keys = wShh.Keys ∧
      (∀ v n2 sec priv ptv, v ≠ "alice" → secretOf wShh v n2 = some sec →
        getDecrypt priv sec = .ok ptv →
        secretOf (⟨wShh.Keys, []⟩ : shh) v n2 = some sec ∧
          getDecrypt priv sec = .ok ptv)) :=
  ⟨⟨by decide, by decide⟩,
    deny_revokes_capability_only wShh ⟨wShh.Keys, []⟩ "alice" "db"
      (by decide) (by decide)⟩

theorem removeMatched_prune (s : shh) (t pat : String) (s' : shh)
    (hnd : (s.Secrets.map Prod.fst).Nodup)
    (h : removeMatched s t pat = .ok s') :
    (∀ m, lookupA s'.Secrets t = some m → m ≠ []) ∧ s'.Keys = s.Keys := by
  obtain ⟨M, hres, hkeys, hsecs⟩ := removeMatched_ok s t pat s' h
  refine ⟨?_, hkeys⟩
  intro m hm
  rw [hsecs] at hm
  by_cases hE : eraseKeysList ((lookupA s.Secrets t).getD []) (M.map Prod.fst) = []
  · rw [if_pos hE, lookupA_eraseA_self _ _ hnd] at hm
    cases hm
  · rw [if_neg hE, lookupA_insertA_self] at hm
    simp only [Option.some.injEq] at hm
    subst hm
    exact hE

/-- C8: for both secret-removing operations (`del` by the acting user and
`deny` against a target), the affected user's entry never remains as an empty
map in `Secrets` — becoming empty removes it — while the keys mapping is
untouched. -/
theorem del_deny_prune_empty_keep_keys (s : shh) (u target pat pat2 : String)
    (s₁ s₂ : shh)
    (hnd : (s.Secrets.map Prod.fst).Nodup)
    (hdel : del s u pat = .ok s₁)
    (hdeny : deny [target, pat2] s = .ok s₂) :
    ((∀ m, lookupA s₁.Secrets u = some m → m ≠ []) ∧ s₁.Keys = s.Keys) ∧
    ((∀ m, lookupA s₂.Secrets target = some m → m ≠ []) ∧ s₂.Keys = s.Keys) :=
  ⟨removeMatched_prune s u pat s₁ hnd hdel,
   removeMatched_prune s target pat2 s₂ hnd (by rw [deny_two_args] at hdeny; exact hdeny)⟩

/-- C8 witness: deleting alice's last secret (and denying all of it) removes
her from `Secrets` while keeping her public key. -/
theorem del_deny_prune_empty_keep_keys_witness :
    ((wShh.Secrets.map Prod.fst).Nodup ∧
      del wShh "alice" "db" = .ok ⟨wShh.Keys, []⟩ ∧
      deny ["alice", "*"] wShh = .ok ⟨wShh.Keys, []⟩) ∧
    (((∀ m, lookupA (⟨wShh.Keys, []⟩ : shh).Secrets "alice" = some m → m ≠ []) ∧
        (⟨wShh.Keys, []⟩ : shh).Keys = wShh.Keys) ∧
      ((∀ m, lookupA (⟨wShh.Keys, []⟩ : shh).Secrets "alice" = some m → m ≠ []) ∧
        (⟨wShh.Keys, []⟩ : shh).Keys = wShh.Keys)) :=
  ⟨⟨by decide, by decide, by decide⟩,
    del_deny_prune_empty_keep_keys wShh "alice" "alice" "db" "*"
      ⟨wShh.Keys, []⟩ ⟨wShh.Keys, []⟩ (by decide) (by decide) (by decide)⟩

/-- C10 counterexample: when alice's pattern `nope` resolves to zero secrets,
`edit` is not rejected with an error before any manifest change — it proceeds
to the editor (with empty plaintext) and returns success. -/
theorem edit_zero_match_not_rejected :
    edit wShh "alice" 1 "nope" (fun b => b) rnd0 = .ok ⟨wShh, false, true⟩ := by
  decide

/-- C10 amended: `edit` rejects a resolution to more than one secret with an
error before any manifest change; a resolution to zero secrets is not
rejected — `edit` proceeds to the editor with empty plaintext (and an
unchanged save leaves the manifest untouched and unpersisted). -/
theorem edit_match_resolution (s : shh) (u : String) (priv : Nat)
    (pattern : String) (editor : Bytes → Bytes) (rnd : Nat → Bytes × Bytes)
    (ms : List (String × secret))
    (hres : GetSecretsForUser s pattern u = .ok ms) :
    (1 < ms.length →
      edit s u priv pattern editor rnd = .err "mulitple secrets found, cannot use *") ∧
    (ms = [] → sha1hex (editor []) = sha1hex [] →
      edit s u priv pattern editor rnd = .ok ⟨s, false, true⟩) := by
  constructor
  · intro hlen
    unfold edit editPrep
    simp only [hres, if_pos hlen]
  · intro hms hhash
    subst hms
    have hprep : editPrep s u priv pattern = .ok ("", []) := by
      unfold editPrep
      simp [hres, editLoop]
    unfold edit
    simp only [hprep]
    rw [if_pos hhash.symm]

/-- C10 witness: the amended statement at the concrete zero-match input. -/
theorem edit_match_resolution_witness :
    GetSecretsForUser wShh "nope" "alice" = .ok [] ∧
    ((1 < ([] : List (String × secret)).length →
      edit wShh "alice" 1 "nope" (fun b => b) rnd0 =
        .err "mulitple secrets found, cannot use *") ∧
    (([] : List (String × secret)) = [] →
      sha1hex ((fun b => b) []) = sha1hex [] →
      edit wShh "alice" 1 "nope" (fun b => b) rnd0 = .ok ⟨wShh, false, true⟩)) :=
  ⟨by decide,
    edit_match_resolution wShh "alice" 1 "nope" (fun b => b) rnd0 [] (by decide)⟩
